import Mathlib

/-!
# Verification of the SELint policy source analysis engine

A shallow embedding, in Lean 4, of the parts of the SELint repository that
the frozen claims refer to:

* `SetFitter` (src/plugins/global_macros.py): covering a permission set with
  pre-defined permission macros;
* the rule mapper (src/policysource/mapping.py): sync-line tracking,
  rule-block tokenization (`get_rule_blocks`), block expansion
  (`expand_block`), AV/TE rule expansion, and `get_mapping`;
* the rule model (`AVRule`, `TERule`, `MappedRule` of
  src/policysource/mapping.py), including the Python calling convention for
  their `__hash__` methods;
* `M4Macro.expand` (src/policysource/macro.py).

Python `set`s are modelled as `List`s with no duplicates (hypotheses state
`Nodup` where it matters), Python `dict`s as association lists with
insert-or-overwrite/append semantics, Python `float` scores as `ℚ`
(the scores computed by the source are exact small rationals), and Python
exceptions as `Except String`.
-/

namespace Selint

/-! ## Generic helpers (Python built-ins) -/

/-- Lexicographic comparison of strings by code point (the order Python
`sorted` uses on strings), written out so that it evaluates by kernel
reduction. -/
def strLeChars : List Char → List Char → Bool
  | [], _ => true
  | _ :: _, [] => false
  | a :: as, b :: bs =>
    if a.toNat < b.toNat then true
    else if b.toNat < a.toNat then false
    else strLeChars as bs

/-- `strLeChars` on strings. -/
def strLe (a b : String) : Bool := strLeChars a.data b.data

/-- Insert a string into a sorted list (helper for `sortStrings`). -/
def sortedInsert (x : String) : List String → List String
  | [] => [x]
  | y :: ys => if strLe x y then x :: y :: ys else y :: sortedInsert x ys

/-- Python `sorted` on a list of strings (insertion sort). -/
def sortStrings (l : List String) : List String := l.foldr sortedInsert []

/-- Python `min(l, key=key)`: first element with minimal key, `none` on `[]`. -/
def minBy {α : Type} (key : α → Nat) : List α → Option α
  | [] => none
  | x :: xs => some (xs.foldl (fun acc y => if key y < key acc then y else acc) x)

/-! ## SetFitter (src/plugins/global_macros.py, lines 282-394) -/

/-- `SetFitter.RichSet` (global_macros.py lines 287-338): a candidate
permission set with a per-element tally, the count `nonzero` of elements
matched so far, and the coverage score `nonzero / len(tally)`.
The Python float score is modelled as a rational. -/
structure RichSet where
  name : String
  values : List String
  tally : List (String × Nat)
  nonzero : Nat
  score : ℚ
deriving DecidableEq, Repr

/-- `RichSet.__init__` (lines 290-297): every element starts with tally 0. -/
def RichSet.init (name : String) (values : List String) : RichSet :=
  { name := name, values := values,
    tally := values.map (fun v => (v, 0)), nonzero := 0, score := 0 }

/-- `self.tally[elem] += 1`: bump the first entry with the given key. -/
def bumpTally : List (String × Nat) → String → List (String × Nat)
  | [], _ => []
  | (k, n) :: rest, e => if k = e then (k, n + 1) :: rest else (k, n) :: bumpTally rest e

/-- `RichSet.incr` (lines 303-311): if `elem` is a tally key and its tally is
still 0, this is the first match: bump `nonzero` and recompute the score as
`nonzero / len(tally)` (written with `mkRat`, which equals the division by
`Rat.mkRat_eq_div`); in any case bump the element's tally. -/
def RichSet.incr (r : RichSet) (elem : String) : RichSet :=
  match r.tally.lookup elem with
  | none => r
  | some t =>
    if t = 0 then
      { r with nonzero := r.nonzero + 1,
               score := mkRat (r.nonzero + 1 : Nat) r.tally.length,
               tally := bumpTally r.tally elem }
    else
      { r with tally := bumpTally r.tally elem }

/-- One candidate processed against the whole target set
(the inner loop of `fit`, lines 354-356, seen from a single `RichSet`). -/
def processRich (s : List String) (r : RichSet) : RichSet := s.foldl RichSet.incr r

/-- The state of `rich_sets` after the fitting loop of `fit`
(lines 350-356): one `RichSet` per candidate of the dictionary `d`,
each incremented once per element of `s`. -/
def richAfter (d : List (String × List String)) (s : List String) : List RichSet :=
  s.foldl (fun rs elem => rs.map (fun each => each.incr elem))
    (d.map fun kv => RichSet.init kv.1 kv.2)

/-- The `ones` list of `fit` (lines 357-363): candidates with score 1. -/
def fullSets (d : List (String × List String)) (s : List String) : List RichSet :=
  (richAfter d s).filter (fun x => decide (x.score = 1))

/-- The `part` list of `fit` (lines 357-363): all other candidates
(score ≠ 1, including score 0). -/
def partSets (d : List (String × List String)) (s : List String) : List RichSet :=
  (richAfter d s).filter (fun x => decide (¬ x.score = 1))

/-- The union of the member sets of a combination (`c_set`, lines 375-377). -/
def comboSet (c : List RichSet) : List String := (c.map (fun x => x.values)).flatten

/-- `extra = s - c_set` (line 380): the elements of the target set not
covered by the union of the combination. -/
def extraList (s : List String) (c : List RichSet) : List String :=
  s.filter (fun e => decide (e ∉ comboSet c))

/-- `len(extra)`: the number of extra elements (for `s` without duplicates,
the cardinality of the set difference). -/
def extraLen (s : List String) (c : List RichSet) : Nat := (extraList s c).length

/-- All combinations of full candidates (lines 364-367):
`itertools.combinations(ones, i)` for `i = 1 .. len(ones)` enumerates
exactly the non-empty subsequences of `ones`. -/
def nonemptyCombos (ones : List RichSet) : List (List RichSet) :=
  ones.sublists.filter (fun c => decide (c ≠ []))

/-- Winner selection (lines 369-393): group combinations by `len(extra)`
(`extra_dim`), take the smallest key `m = min(extra_dim)`, and among
`extra_dim[m]` (the combinations whose extra has size `m`, in enumeration
order) take `min(..., key=len)`, the first one of minimal cardinality.
If there are no combinations the winner is the empty list. -/
def selectWinner (s : List String) (combos : List (List RichSet)) : List RichSet :=
  match minBy (extraLen s) combos with
  | none => []
  | some c0 =>
    let m := extraLen s c0
    match minBy List.length (combos.filter (fun c => extraLen s c == m)) with
    | none => []
    | some w => w

/-- `SetFitter.fit` (lines 348-394): returns `(winner, part)`. -/
def fit (d : List (String × List String)) (s : List String) :
    List RichSet × List RichSet :=
  (selectWinner s (nonemptyCombos (fullSets d s)), partSets d s)

/-! ## String helpers (Python string methods, on `List Char`) -/

/-- Python whitespace (the characters relevant to `str.strip`/`str.split`). -/
def isPySpace (c : Char) : Bool := c = ' ' || c = '\t' || c = '\n' || c = '\r'

/-- Python `str.strip()`. -/
def pyStrip (s : String) : String :=
  ⟨((s.data.dropWhile isPySpace).reverse.dropWhile isPySpace).reverse⟩

/-- Python `str.strip(chars)`: remove the listed characters from both ends. -/
def stripSet (cs : List Char) (s : String) : String :=
  ⟨((s.data.dropWhile (fun c => cs.contains c)).reverse.dropWhile
      (fun c => cs.contains c)).reverse⟩

/-- `pre` is a prefix of `s` (character lists). -/
def startsChars : List Char → List Char → Bool
  | [], _ => true
  | _ :: _, [] => false
  | p :: ps, c :: cs => p = c && startsChars ps cs

/-- Python `s.startswith(pre)`. -/
def pyStarts (s pre : String) : Bool := startsChars pre.data s.data

/-- Python `s.endswith(";")`. -/
def endsSemi (s : String) : Bool :=
  match s.data.reverse with
  | [] => false
  | c :: _ => c = ';'

/-- Python `s.endswith(" ")` (used by the block scanner). -/
def lastIsSpace (s : String) : Bool :=
  match s.data.reverse with
  | [] => false
  | c :: _ => c = ' '

/-- Python `s.rstrip(";")`. -/
def rstripSemis (s : String) : String :=
  ⟨(s.data.reverse.dropWhile (fun c => c = ';')).reverse⟩

/-- Python `s.replace(":", " ")` on a character list. -/
def colonToSpace (l : List Char) : List Char :=
  l.map (fun c => if c = ':' then ' ' else c)

/-- Helper for `pySplitWs`: accumulate the current word (reversed). -/
def wordsAux : List Char → List Char → List String
  | cur, [] => if cur.isEmpty then [] else [⟨cur.reverse⟩]
  | cur, c :: cs =>
    if isPySpace c then
      if cur.isEmpty then wordsAux [] cs else ⟨cur.reverse⟩ :: wordsAux [] cs
    else wordsAux (c :: cur) cs

/-- Python `s.split()`: split on whitespace runs, no empty words. -/
def pySplitWs (s : String) : List String := wordsAux [] s.data

/-- `" ".join(" ".join(group).split())` (mapping.py line 442):
join the group lines and normalise all whitespace to single spaces. -/
def normSpaces (group : List String) : String :=
  " ".intercalate (pySplitWs (" ".intercalate group))

/-- Python `line.split("#")[0]`: the part before the first `#`. -/
def beforeHash (s : String) : String := ⟨s.data.takeWhile (fun c => c ≠ '#')⟩

/-- Decimal digits to a number (Python `int` on a `[0-9]+` match). -/
def digitsToNat (l : List Char) : Nat := l.foldl (fun n c => n * 10 + (c.toNat - 48)) 0

/-! ## Rule block tokenization (mapping.py, `Mapper.get_rule_blocks`,
lines 692-802) -/

/-- `Mapper.complementable` (line 361): characters allowed after `~`. -/
def complementable : String :=
  "abcdefghijklmnopqrstuvwxyzABCDEFGHIJKLMNOPQRSTUVWXYZ\x7b"

/-- `char in Mapper.complementable`. -/
def isComplementable (c : Char) : Bool := complementable.data.contains c

/-- The scanner state of `get_rule_blocks`: curly-bracket nesting level,
the current block, the finished blocks, and the pending-complement flag. -/
structure ScanState where
  nestLvl : Nat
  block : String
  blocks : List String
  compNext : Bool
deriving DecidableEq, Repr

/-- One character transition of the `get_rule_blocks` scanner
(mapping.py lines 717-797), with `ValueError` as `Except.error`. -/
def blocksStep (rule : String) (st : ScanState) (c : Char) : Except String ScanState :=
  if st.compNext && !isComplementable c then
    .error ("Bad complement sign in \"" ++ rule ++ "\"")
  else if c = '~' then
    if st.nestLvl ≠ 0 then
      .error ("Nested complement group in \"" ++ rule ++ "\"")
    else
      .ok { st with compNext := true }
  else if c = '{' then
    if st.nestLvl + 1 = 1 then
      let blocks := if st.block = "" then st.blocks else st.blocks ++ [pyStrip st.block]
      if st.compNext then
        .ok { nestLvl := st.nestLvl + 1, block := "~\x7b", blocks := blocks, compNext := false }
      else
        .ok { nestLvl := st.nestLvl + 1, block := "\x7b", blocks := blocks, compNext := st.compNext }
    else
      .ok { st with nestLvl := st.nestLvl + 1 }
  else if c = '}' then
    if st.nestLvl > 0 then
      if st.nestLvl - 1 = 0 then
        .ok { st with nestLvl := 0, blocks := st.blocks ++ [st.block ++ "\x7d"], block := "" }
      else
        .ok { st with nestLvl := st.nestLvl - 1 }
    else
      .error ("Mismatched separators in \"" ++ rule ++ "\"")
  else
    if st.nestLvl > 0 then
      if c ≠ ' ' || !lastIsSpace st.block then
        .ok { st with block := st.block.push c }
      else
        .ok st
    else if c = ' ' then
      if st.block = "" then .ok st
      else .ok { st with blocks := st.blocks ++ [pyStrip st.block], block := "" }
    else
      let b := if st.compNext then "~" else st.block
      .ok { st with block := b.push c, compNext := false }

/-- Run the scanner over the remaining characters; at the end a pending
simple block is stripped and appended (lines 798-801). -/
def scanRule (rule : String) : ScanState → List Char → Except String (List String)
  | st, [] => .ok (if st.block = "" then st.blocks else st.blocks ++ [pyStrip st.block])
  | st, c :: cs =>
    match blocksStep rule st c with
    | .error e => .error e
    | .ok st' => scanRule rule st' cs

/-- Python `rule.split(" ", 1)`: split at the first space;
raises (`ValueError`) when there is no space (unpacking failure). -/
def splitSpaceAux (acc : List Char) : List Char → Option (String × String)
  | [] => none
  | c :: cs => if c = ' ' then some (⟨acc.reverse⟩, ⟨cs⟩) else splitSpaceAux (c :: acc) cs

/-- See `splitSpaceAux`. -/
def splitFirstSpace (s : String) : Option (String × String) := splitSpaceAux [] s.data

/-- `Mapper.get_rule_blocks` (lines 692-802): reject mismatched `{`/`}`
counts, split off the rule type, then scan the remainder (with trailing
semicolons removed and `:` replaced by a space) into blocks. -/
def getRuleBlocks (rule : String) : Except String (List String) :=
  if rule.data.count '{' ≠ rule.data.count '}' then
    .error ("Mismatched separators in \"" ++ rule ++ "\"")
  else
    match splitFirstSpace rule with
    | none => .error "ValueError: not enough values to unpack"
    | some (ruleType, rest) =>
      scanRule rule { nestLvl := 0, block := "", blocks := [ruleType], compNext := false }
        (colonToSpace (rstripSemis rest).data)

/-! ## Block expansion (mapping.py, `Mapper.expand_block`, lines 627-690) -/

/-- The semantic role of a block: `"type"`, `"class"` or `"perms"`.
The source validates the role string at entry (line 635); with an
inductive role type that check is vacuous. -/
inductive BlockRole where
  | type
  | cls
  | perms
deriving DecidableEq, Repr

/-- The `attributes`, `types` and `classes` tables the `Mapper` is
constructed with (mapping.py lines 363-373), as association lists / lists
standing for the Python dicts / sets. -/
structure PolicyTables where
  attributes : List (String × List String)
  types : List String
  classes : List (String × List String)

/-- Python `word.lstrip("-")`. -/
def dropDashes (s : String) : String := ⟨s.data.dropWhile (fun c => c = '-')⟩

/-- Remove duplicates, keeping first occurrences (Python set contents as a
list). -/
def dedupAux (seen : List String) : List String → List String
  | [] => []
  | x :: xs => if seen.contains x then dedupAux seen xs else x :: dedupAux (seen ++ [x]) xs

/-- See `dedupAux`. -/
def dedupStrs (l : List String) : List String := dedupAux [] l

/-- Python `sorted(set)` where the set is a list possibly with duplicates:
deduplicate, then sort. -/
def sortedSet (l : List String) : List String := sortStrings (dedupStrs l)

/-- The complex-block loop of `expand_block` (lines 641-661): collect
positive and negative atoms (expanding attributes in role `type`), then
return the sorted difference. -/
def complexBlockSets (tbl : PolicyTables) (role : BlockRole) (words : List String) :
    List String × List String :=
  words.foldl
    (fun ar word =>
      if pyStarts word "-" then
        let w := dropDashes word
        let attrTypes :=
          if role = BlockRole.type then (tbl.attributes.lookup w).getD [] else []
        (ar.1, ar.2 ++ attrTypes ++ [w])
      else
        let attrTypes :=
          if role = BlockRole.type then (tbl.attributes.lookup word).getD [] else []
        (ar.1 ++ attrTypes ++ [word], ar.2))
    ([], [])

/-- `Mapper.expand_block` (lines 627-690). The perms-role complement with a
class name missing from `classes` is a Python `KeyError` (uncaught in the
source); any other failure path is the `ValueError` of line 674. -/
def expandBlock (tbl : PolicyTables) (block : String) (role : BlockRole)
    (forClass : Option String) : Except String (List String) :=
  if pyStarts block "\x7b" then
    let (add, remove) := complexBlockSets tbl role (pySplitWs (stripSet ['{', '}'] block))
    .ok (sortedSet (add.filter (fun x => !(remove.contains x))))
  else if pyStarts block "~" || block = "*" then
    let addE : Except String (List String) :=
      match role with
      | BlockRole.type => .ok tbl.types
      | BlockRole.cls => .ok (tbl.classes.map (fun kv => kv.1))
      | BlockRole.perms =>
        match forClass with
        | some fc =>
          match tbl.classes.lookup fc with
          | some ps => .ok ps
          | none => .error "KeyError"
        | none => .error "Bad class name for permissions block."
    match addE with
    | .error e => .error e
    | .ok add =>
      let remove := pySplitWs (stripSet ['~', '{', '}'] block)
      .ok (sortedSet (add.filter (fun x => !(remove.contains x))))
  else
    if role = BlockRole.type then
      match tbl.attributes.lookup block with
      | some ts => .ok (sortedSet (ts ++ [block]))
      | none => .ok [block]
    else
      .ok [block]

/-! ## Rule expansion (mapping.py, `Mapper.__expand_avrule` lines 521-571
and `Mapper.__expand_terule` lines 573-625) -/

/-- A ground AV rule before rendering: rule type, subject, object, class
and permission string. -/
structure AVGround where
  rtype : String
  sub : String
  obj : String
  cls : String
  permstr : String
deriving DecidableEq, Repr

/-- The `base` key: `"rtype sub obj:cls"`. -/
def AVGround.base (g : AVGround) : String :=
  g.rtype ++ " " ++ g.sub ++ " " ++ g.obj ++ ":" ++ g.cls

/-- The full rule string: `base + " " + permstr + ";"`. -/
def AVGround.full (g : AVGround) : String := g.base ++ " " ++ g.permstr ++ ";"

/-- The permission string for one class (lines 550-553 / 562-565): braces
and spaces around multiple permissions, the bare permission otherwise.
`perms[0]` on an empty expansion is a Python `IndexError`. -/
def permString : List String → Except String String
  | [] => .error "IndexError"
  | [p] => .ok p
  | ps => .ok ("\x7b " ++ " ".intercalate ps ++ " \x7d")

/-- The inner loops of the `self` branch (lines 554-557): the object slot
is replaced by the subject. -/
def selfClassGrounds (rtype : String) (subjects : List String) (cls permstr : String) :
    List AVGround :=
  subjects.map (fun sub => ⟨rtype, sub, sub, cls, permstr⟩)

/-- The inner loops of the normal branch (lines 566-570). -/
def crossClassGrounds (rtype : String) (subjects objects : List String)
    (cls permstr : String) : List AVGround :=
  (subjects.map (fun sub => objects.map (fun obj =>
    (⟨rtype, sub, obj, cls, permstr⟩ : AVGround)))).flatten

/-- Collect `Except` results, aborting at the first error (the behaviour
of the Python `for` loop when an exception is raised). -/
def mapMExcept {α β : Type} (f : α → Except String β) : List α → Except String (List β)
  | [] => .ok []
  | a :: l =>
    match f a with
    | .error e => .error e
    | .ok b =>
      match mapMExcept f l with
      | .error e => .error e
      | .ok bs => .ok (b :: bs)

/-- `Mapper.__expand_avrule` (lines 521-571), producing the ground rules in
emission order (the class loop outermost, exactly as in the source). -/
def expandAVGrounds (tbl : PolicyTables) (blocks : List String) :
    Except String (List AVGround) :=
  match blocks with
  | [b0, b1, b2, b3, b4] => do
    let subjects ← expandBlock tbl b1 BlockRole.type none
    let objects ← expandBlock tbl b2 BlockRole.type none
    let classes ← expandBlock tbl b3 BlockRole.cls none
    if "self" ∈ objects then do
      let perClass ← mapMExcept (fun cls => do
        let perms ← expandBlock tbl b4 BlockRole.perms (some cls)
        let permstr ← permString perms
        pure (selfClassGrounds b0 subjects cls permstr)) classes
      pure perClass.flatten
    else do
      let perClass ← mapMExcept (fun cls => do
        let perms ← expandBlock tbl b4 BlockRole.perms (some cls)
        let permstr ← permString perms
        pure (crossClassGrounds b0 subjects objects cls permstr)) classes
      pure perClass.flatten
  | _ => .error "Invalid rule"

/-- Python dict assignment `m[k] = v`: overwrite in place, keep original
key position, append new keys at the end. -/
def dictInsert (m : List (String × String)) (k v : String) : List (String × String) :=
  match m with
  | [] => [(k, v)]
  | (k', v') :: rest => if k' = k then (k, v) :: rest else (k', v') :: dictInsert rest k v

/-- The `rules` dictionary `{base: full}` built by `__expand_avrule`. -/
def expandAVRule (tbl : PolicyTables) (blocks : List String) :
    Except String (List (String × String)) :=
  (expandAVGrounds tbl blocks).map
    (fun gs => gs.foldl (fun m g => dictInsert m g.base g.full) [])

/-- `Mapper.__expand_terule` (lines 573-625): 5 blocks are a type
transition, 6 a name transition; multiplex subject × object × class and
append the trailing data. -/
def expandTERule (tbl : PolicyTables) (blocks : List String) :
    Except String (List (String × String)) :=
  let core (b0 b1 b2 b3 : String) (add : String) :
      Except String (List (String × String)) := do
    let subjects ← expandBlock tbl b1 BlockRole.type none
    let objects ← expandBlock tbl b2 BlockRole.type none
    let classes ← expandBlock tbl b3 BlockRole.cls none
    pure ((subjects.map (fun sub => (objects.map (fun obj => (classes.map (fun cls =>
      let base := b0 ++ " " ++ sub ++ " " ++ obj ++ ":" ++ cls
      (base, base ++ " " ++ add))))).flatten)).flatten |>.foldl
        (fun m kv => dictInsert m kv.1 kv.2) [])
  match blocks with
  | [b0, b1, b2, b3, b4] => core b0 b1 b2 b3 (b4 ++ ";")
  | [b0, b1, b2, b3, b4, b5] => core b0 b1 b2 b3 (b4 ++ " " ++ b5 ++ ";")
  | _ => .error "Invalid rule"

/-! ## The mapper (mapping.py, `Mapper.get_mapping`, lines 375-470) -/

/-- `ONLY_MAP_RULES` (mapping.py lines 28-29). -/
def ONLY_MAP_RULES : List String :=
  ["allow", "auditallow", "dontaudit", "neverallow", "type_transition"]

/-- `AVRULES` (mapping.py line 33). -/
def AVRULES : List String := ["allow", "auditallow", "dontaudit", "neverallow"]

/-- `TERULES` (mapping.py lines 34-35). -/
def TERULES : List String :=
  ["type_transition", "type_change", "type_member", "typebounds"]

/-- `line.startswith(self.supported_rules)`: a tuple argument to
`startswith` matches any of its members as a prefix. -/
def startsWithSupported (s : String) : Bool := ONLY_MAP_RULES.any (fun p => pyStarts s p)

/-- `Mapper.expand_rule` (lines 500-519). -/
def expandRule (tbl : PolicyTables) (rule : String) :
    Except String (List (String × String)) :=
  if startsWithSupported rule then
    match getRuleBlocks rule with
    | .error e => .error e
    | .ok blocks =>
      match blocks with
      | [] => .error "Unsupported rule"
      | b0 :: _ =>
        if b0 ∈ AVRULES then expandAVRule tbl blocks
        else if b0 ∈ TERULES then expandTERule tbl blocks
        else .error "Unsupported rule"
  else .error "Unsupported rule"

/-- `MappedRule` (mapping.py lines 130-147): a ground rule string with its
origin `file:line`. -/
structure MappedRule where
  rule : String
  fileline : String
deriving DecidableEq, Repr

/-- The loop state of `get_mapping` (lines 383-388): the two mapping
dictionaries, the current rule group, and the sync-line tracking state. -/
structure MapState where
  rules : List (String × List MappedRule)
  lines : List (String × String)
  group : List String
  currentFile : String
  currentLine : Nat
  prevSync : Bool
deriving DecidableEq, Repr

/-- `mapping_rules[rule] = [mpr]` / `mapping_rules[rule].append(mpr)`
(lines 460-466): a multimap keyed by the base rule. -/
def appendRuleEntry (m : List (String × List MappedRule)) (k : String) (v : MappedRule) :
    List (String × List MappedRule) :=
  match m with
  | [] => [(k, [v])]
  | (k', vs) :: rest =>
    if k' = k then (k', vs ++ [v]) :: rest else (k', vs) :: appendRuleEntry rest k v

/-- The path captured by `#line 1 "([^"]+)"` (line 389): the characters
after the opening quote (position 9) up to the closing quote. -/
def syncFilePath (line : String) : String :=
  ⟨(line.data.drop 9).takeWhile (fun c => c ≠ '"')⟩

/-- The line number captured by `#line ([0-9]+)` (line 390). -/
def syncLineNum (line : String) : Nat :=
  digitsToNat ((line.data.drop 6).takeWhile (fun c => c.isDigit))

/-- The non-sync-line part of the `get_mapping` loop body (lines 420-468):
strip, skip blanks and comments, require a supported first token for a new
group, strip end-of-line comments, accumulate until a `;`, then expand and
record. A failed expansion (`ValueError`) only clears the group. -/
def mapBody (tbl : PolicyTables) (st : MapState) (line : String) : MapState :=
  let line := pyStrip line
  if line = "" || pyStarts line "#" then st
  else if st.group.isEmpty && !startsWithSupported line then st
  else
    let line := if line.data.any (fun c => c = '#') then pyStrip (beforeHash line) else line
    let group := st.group ++ [line]
    if !endsSemi line then { st with group := group }
    else
      let original := normSpaces group
      match expandRule tbl original with
      | .error _ => { st with group := [] }
      | .ok rules =>
        let tmp := st.currentFile ++ ":" ++ toString st.currentLine
        { st with
          lines := dictInsert st.lines tmp original,
          rules := rules.foldl (fun m kv => appendRuleEntry m kv.1 ⟨kv.2, tmp⟩) st.rules,
          group := [] }

/-- One line of the `get_mapping` loop (lines 395-468): when the previous
line was not a sync line, a `#line 1 "path"` marker switches file and
resets the line counter, a `#line N` marker sets the counter, and any
other line increments it; the line right after a sync line is the one the
marker described, so its number is not incremented again. -/
def mapStep (tbl : PolicyTables) (st : MapState) (line : String) : MapState :=
  if !st.prevSync then
    if pyStarts line "#line 1 \"" then
      { st with currentFile := syncFilePath line, currentLine := 1, prevSync := true }
    else if pyStarts line "#line " then
      { st with currentLine := syncLineNum line, prevSync := true }
    else
      mapBody tbl { st with currentLine := st.currentLine + 1 } line
  else
    mapBody tbl { st with prevSync := false } line

/-- The initial state of `get_mapping` (lines 383-388). -/
def initialMapState : MapState :=
  { rules := [], lines := [], group := [], currentFile := "", currentLine := 0,
    prevSync := false }

/-- `Mapper.get_mapping` (lines 375-470) over the lines of `policy.conf`:
fold the loop body and return the final state (its `rules` and `lines`
fields are the two dictionaries of the returned `Mapping`). -/
def getMapping (tbl : PolicyTables) (content : List String) : MapState :=
  content.foldl (mapStep tbl) initialMapState

/-! ## The rule model: `AVRule`, `TERule` and the Python calling convention
for `__hash__` (mapping.py lines 150-352) -/

/-- The result of a Python special-method call made by a builtin such as
`hash(obj)`: the builtin supplies exactly one positional argument (the
receiver), so the call succeeds only if the method is declared with
exactly one parameter; otherwise Python raises `TypeError`. -/
inductive PyCall (α : Type) where
  | ok (val : α)
  | typeError
deriving DecidableEq, Repr

/-- `hash(obj)` calling `type(obj).__hash__(obj)`: `declaredParams` is the
number of parameters of the class's `__hash__` declaration and `body` the
value the method body would hash (`str(self)` for all three classes). -/
def pyCall1 {α : Type} (declaredParams : Nat) (body : α) : PyCall α :=
  if declaredParams = 1 then PyCall.ok body else PyCall.typeError

/-- `AVRule` (mapping.py lines 256-352): the five blocks plus the
permission set `frozenset(blocks[4].strip("{}").split())`, kept as a
deduplicated list. -/
structure AVRule where
  rtype : String
  source : String
  target : String
  tclass : String
  perms : String
  permset : List String
deriving DecidableEq, Repr

/-- `AVRule.__init__` (lines 259-287): exactly 5 blocks, none of them
empty (`all(blocks)`), else `ValueError`. -/
def AVRule.fromBlocks (blocks : List String) : Except String AVRule :=
  match blocks with
  | [b0, b1, b2, b3, b4] =>
    if b0 = "" || b1 = "" || b2 = "" || b3 = "" || b4 = "" then
      .error "Invalid block(s)"
    else
      .ok { rtype := b0, source := b1, target := b2, tclass := b3, perms := b4,
            permset := dedupStrs (pySplitWs (stripSet ['{', '}'] b4)) }
  | bs => .error ("Invalid number of blocks (" ++ toString bs.length ++ ")")

/-- `AVRule.__repr__` (lines 333-341). -/
def AVRule.pyRepr (a : AVRule) : String :=
  let s := a.rtype ++ " " ++ a.source ++ " " ++ a.target ++ ":" ++ a.tclass ++ " "
  if 1 < a.permset.length then
    s ++ "\x7b " ++ " ".intercalate (sortStrings a.permset) ++ " \x7d;"
  else
    s ++ " ".intercalate a.permset ++ ";"

/-- `AVRule.__eq__` (lines 343-346): all five fields, the permission set
as an unordered set (compared here through its sorted form). -/
def AVRule.pyEq (a b : AVRule) : Bool :=
  a.rtype = b.rtype && a.source = b.source && a.target = b.target &&
  a.tclass = b.tclass && sortStrings a.permset = sortStrings b.permset

/-- `AVRule.__hash__` is declared `def __hash__(self, other)`
(mapping.py line 351): two required parameters. -/
def AVRule.hashParams : Nat := 2

/-- `hash(avrule)`. -/
def AVRule.pyHash (a : AVRule) : PyCall String := pyCall1 AVRule.hashParams a.pyRepr

/-- `TERule` (mapping.py lines 150-253): rule type, source, target, class,
default type, and (for name transitions) the object name with quotes
stripped. -/
structure TERule where
  rtype : String
  source : String
  target : String
  tclass : String
  deftype : String
  objname : Option String
deriving DecidableEq, Repr

/-- `TERule.__init__` (lines 155-192): 5 or 6 non-empty blocks; a sixth
block is the object name, stripped of quote characters. -/
def TERule.fromBlocks (blocks : List String) : Except String TERule :=
  match blocks with
  | [b0, b1, b2, b3, b4] =>
    if b0 = "" || b1 = "" || b2 = "" || b3 = "" || b4 = "" then
      .error "Invalid block(s)"
    else
      .ok { rtype := b0, source := b1, target := b2, tclass := b3, deftype := b4,
            objname := none }
  | [b0, b1, b2, b3, b4, b5] =>
    if b0 = "" || b1 = "" || b2 = "" || b3 = "" || b4 = "" || b5 = "" then
      .error "Invalid block(s)"
    else
      .ok { rtype := b0, source := b1, target := b2, tclass := b3, deftype := b4,
            objname := some (stripSet ['"', '\''] b5) }
  | bs => .error ("Invalid number of blocks (" ++ toString bs.length ++ ")")

/-- `TERule.__repr__` = `self._str` (built on lines 166-192). -/
def TERule.pyRepr (t : TERule) : String :=
  let s := t.rtype ++ " " ++ t.source ++ " " ++ t.target ++ ":" ++ t.tclass ++ " " ++
    t.deftype
  match t.objname with
  | some o => s ++ " \"" ++ o ++ "\";"
  | none => s ++ ";"

/-- `TERule.__hash__` is declared `def __hash__(self)`
(mapping.py line 252): one parameter. -/
def TERule.hashParams : Nat := 1

/-- `hash(terule)`. -/
def TERule.pyHash (t : TERule) : PyCall String := pyCall1 TERule.hashParams t.pyRepr

/-- `MappedRule.__repr__` (mapping.py lines 146-147). -/
def MappedRule.pyRepr (m : MappedRule) : String := m.fileline ++ ": " ++ m.rule

/-- `MappedRule.__hash__` is declared `def __hash__(self)`
(mapping.py line 143): one parameter. -/
def MappedRule.hashParams : Nat := 1

/-- `hash(mappedrule)`. -/
def MappedRule.pyHash (m : MappedRule) : PyCall String :=
  pyCall1 MappedRule.hashParams m.pyRepr

/-! ## `M4Macro.expand` (macro.py lines 216-294) -/

/-- Substring test on character lists (Python `s in dump`). -/
def containsSubChars (p : List Char) : List Char → Bool
  | [] => startsChars p []
  | c :: cs => startsChars p (c :: cs) || containsSubChars p cs

/-- Replace every occurrence of the pattern `p` (non-empty) by `r`,
left to right, with fuel for termination. -/
def replaceCharsAux (p r : List Char) : Nat → List Char → List Char
  | _, [] => []
  | 0, l => l
  | fuel + 1, c :: cs =>
    if startsChars p (c :: cs) then r ++ replaceCharsAux p r fuel ((c :: cs).drop p.length)
    else c :: replaceCharsAux p r fuel cs

/-- String replacement built on `replaceCharsAux`. -/
def replaceStr (s pat rep : String) : String :=
  ⟨replaceCharsAux pat.data rep.data s.data.length s.data⟩

/-- The class `M4Macro` of macro.py, modelled shallowly: the M4 expander
(an external `m4` subprocess in the source, whose per-call failures are
recoverable and return `None`) is a field `expander : String → Option
String`, and the macro's dump form (`self.dump`, the `dumpdef` output
minus its first line) is the field `dumpBody`. -/
structure M4Defn where
  name : String
  args : List String
  fileDefined : String
  dumpBody : String
  expander : String → Option String

/-- `M4Macro.operators` (macro.py line 219). -/
def m4Operators : List String := ["ifelse(", "incr(", "decr(", "errprint("]

/-- The static/dynamic classification (macro.py lines 250-255): static iff
the dump contains none of the M4 control operators. -/
def M4Defn.expansionStatic (m : M4Defn) : Bool :=
  !(m4Operators.any (fun op => containsSubChars op.data m.dumpBody.data))

/-- The `@@ARGi@@` placeholders (macro.py lines 282-284). -/
def placeholderList (n : Nat) : List String :=
  (List.range n).map (fun i => "@@ARG" ++ toString i ++ "@@")

/-- The net effect of the static-expansion template pipeline (macro.py
lines 286-294): the brace doubling plus the `@@ARGN@@ → {N}` rewrite plus
`str.format(*args)` amounts to substituting `args[i]` for each literal
`@@ARGi@@` in the placeholder expansion. -/
def substArgs (s : String) (args : List String) : String :=
  (List.range args.length).foldl
    (fun acc i => replaceStr acc ("@@ARG" ++ toString i ++ "@@") (args.getD i "")) s

/-- `M4Macro.expand` (macro.py lines 246-294). Control flow of the source:
macros of arity 0 ignore the supplied arguments entirely and return the
(cached) expansion of the bare name; for positive arity, `None` arguments
return the dump form, an arity mismatch returns `None`, a dynamic macro
calls m4 on `name(arg0, arg1, …)`, and a static macro substitutes the
arguments into the placeholder template (a `None` template, possible when
the expander fails, would crash `re.sub` in the source; modelled as
`none`). -/
def M4Defn.expand (m : M4Defn) (args : Option (List String)) : Option String :=
  if m.args.length = 0 then m.expander m.name
  else
    match args with
    | none => some m.dumpBody
    | some as =>
      if as.length ≠ m.args.length then none
      else if !m.expansionStatic then
        m.expander (m.name ++ "(" ++ ", ".intercalate as ++ ")")
      else
        match m.expander
            (m.name ++ "(" ++ ", ".intercalate (placeholderList m.args.length) ++ ")") with
        | none => none
        | some tpl => some (substArgs tpl as)

/-! ## Statement-level definitions and concrete example inputs -/

/-- An `Except` value that is an error (a raised Python exception). -/
def exceptIsErr {α : Type} : Except String α → Bool
  | .error _ => true
  | .ok _ => false

/-- The end-of-line comment stripping `get_mapping` applies to an already
stripped line (mapping.py lines 431-432), named for use in statements. -/
def commentStripped (l : String) : String :=
  if l.data.any (fun c => c = '#') then pyStrip (beforeHash l) else l

/-- The loop invariant of the fitting loop, for one candidate: after
processing the prefix `p` of the target set, the tally holds the number of
occurrences of each value in `p`, `nonzero` counts the values seen so far,
and the score is `nonzero / len(values)`. -/
def RichInv (name : String) (values : List String) (p : List String) (r : RichSet) : Prop :=
  r.name = name ∧ r.values = values ∧
  r.tally = values.map (fun v => (v, p.count v)) ∧
  r.nonzero = (values.filter (fun v => decide (v ∈ p))).length ∧
  r.score = mkRat r.nonzero values.length

/-- The `global_macros`-style candidate dictionary of spec scenario 3:
`r` and `w`. -/
def fitMacros : List (String × List String) :=
  [("r", ["getattr", "open", "read", "ioctl", "lock"]),
   ("w", ["open", "append", "write"])]

/-- The target permission set of spec scenario 3. -/
def fitTarget : List String :=
  ["open", "append", "write", "getattr", "read", "ioctl", "lock"]

/-- Mapper tables for the sync-line and multi-rule scenarios: no
attributes, types `d` and `t`, no classes. -/
def mapTables : PolicyTables :=
  { attributes := [], types := ["d", "t"], classes := [] }

/-- Mapper tables for the complement scenario: types
`{foo, bar, baz, qux}`, no attributes. -/
def complementTables : PolicyTables :=
  { attributes := [], types := ["foo", "bar", "baz", "qux"], classes := [] }

/-- Mapper tables for the `self` scenario: types `{a, b}`, no attributes. -/
def selfTables : PolicyTables :=
  { attributes := [], types := ["a", "b"], classes := [] }

/-- The ground rules of the `self` scenario (spec scenario 2). -/
def selfGrounds2 : List AVGround :=
  [⟨"allow", "a", "a", "process", "signal"⟩, ⟨"allow", "b", "b", "process", "signal"⟩]

/-- The `policy.conf` content of spec scenario 4: a sync line, two blank
lines, one rule. -/
def syncPolicy : List String :=
  ["#line 1 \"a.te\"", "", "", "allow d t:file read;"]

/-- A `policy.conf` whose sixth physical line of `a.te` (line 5 after the
sync line) carries two `;`-separated rules (spec scenario 5). -/
def multiRulePolicy : List String :=
  ["#line 1 \"a.te\"", "", "", "", "",
   "allow d t:file read; allow d t:file write;"]

/-- A `policy.conf` with a rule spanning two physical lines: it starts on
line 1 of `a.te` and its terminating `;` is on line 2. -/
def twoLinePolicy : List String :=
  ["#line 1 \"a.te\"", "allow d", "t:file read;"]

/-- A concrete arity-0 macro: its expander knows only the bare name `m0`,
and its dump form differs from the expansion. -/
def zeroArityDefn : M4Defn :=
  { name := "m0", args := [], fileDefined := "global_macros",
    dumpBody := "dump form",
    expander := fun s => if s = "m0" then some "the body" else none }

/-- A concrete arity-1 macro (static: its dump contains no M4 control
operator). -/
def oneArityDefn : M4Defn :=
  { name := "m1", args := ["arg0"], fileDefined := "te_macros",
    dumpBody := "allow $1 t:file read;",
    expander := fun s => some s }

/-- The `AVRule` of the docstring example of `AVRule.__init__`. -/
def exampleAVRule : AVRule :=
  { rtype := "allow", source := "initrc_t", target := "exec_t", tclass := "file",
    perms := "{ getattr read execute }", permset := ["getattr", "read", "execute"] }

/-- The mapper state after the first two lines of `twoLinePolicy`: the
rule has started (`group` holds its first line) but is not finished. -/
def twoLineMidState : MapState :=
  { rules := [], lines := [], group := ["allow d"], currentFile := "a.te",
    currentLine := 1, prevSync := false }

end Selint

deriving instance DecidableEq for Except

namespace Selint

/-! ## Helper lemmas -/

/-- Python dict assignment: looking up the assigned key yields the (latest)
assigned value. -/
theorem dictInsert_lookup (m : List (String × String)) (k v : String) :
    (dictInsert m k v).lookup k = some v := by
  induction m with
  | nil => simp [dictInsert, List.lookup]
  | cons kv rest ih =>
    rcases kv with ⟨k', v'⟩
    by_cases h : k' = k
    · simp [dictInsert, h, List.lookup]
    · simp only [dictInsert, if_neg h, List.lookup]
      have : (k == k') = false := by
        simp only [beq_eq_false_iff_ne, ne_eq]
        exact fun hk => h hk.symm
      simp [this, ih]

/-- A string append ends in `;` iff its non-empty right part does. -/
theorem endsSemi_append (a b : String) (h : b.data ≠ []) :
    endsSemi (a ++ b) = endsSemi b := by
  have hd : (a ++ b).data = a.data ++ b.data := rfl
  simp only [endsSemi, hd, List.reverse_append]
  cases hb : b.data.reverse with
  | nil => exact absurd (by simpa using congrArg List.reverse hb) h
  | cons d ds => simp [hb]

/-- `mapMExcept` success: every output element comes from applying `f` to
some input element. -/
theorem mapMExcept_ok_mem {α β : Type} (f : α → Except String β) :
    ∀ (l : List α) (out : List β), mapMExcept f l = Except.ok out →
      ∀ b ∈ out, ∃ a ∈ l, f a = Except.ok b := by
  intro l
  induction l with
  | nil =>
    intro out h b hb
    simp only [mapMExcept, Except.ok.injEq] at h
    subst h
    simp at hb
  | cons a l ih =>
    intro out h b hb
    simp only [mapMExcept] at h
    rcases hfa : f a with e | fb <;> rw [hfa] at h
    · exact absurd h (by simp)
    · rcases hml : mapMExcept f l with e | bs <;> rw [hml] at h
      · exact absurd h (by simp)
      · simp only [Except.ok.injEq] at h
        subst h
        rcases List.mem_cons.mp hb with hb | hb
        · exact ⟨a, List.mem_cons_self a l, hb ▸ hfa⟩
        · rcases ih bs hml b hb with ⟨a', ha', hfa'⟩
          exact ⟨a', List.mem_cons_of_mem a ha', hfa'⟩

/-- Inversion for a successful `Except` bind. -/
theorem exceptBind_ok {α β : Type} {x : Except String α} {f : α → Except String β}
    {b : β} (h : x >>= f = Except.ok b) : ∃ a, x = Except.ok a ∧ f a = Except.ok b := by
  cases x with
  | error e => exact absurd h (by simp [Bind.bind, Except.bind])
  | ok a => exact ⟨a, rfl, by simpa [Bind.bind, Except.bind] using h⟩

/-- Every ground rule produced by the `self` branch has its object slot
equal to its subject slot. -/
theorem selfClassGrounds_obj_eq_sub (rtype : String) (subjects : List String)
    (cls permstr : String) :
    ∀ g ∈ selfClassGrounds rtype subjects cls permstr, g.obj = g.sub := by
  intro g hg
  simp only [selfClassGrounds, List.mem_map] at hg
  rcases hg with ⟨sub, _, rfl⟩
  rfl

/-! ## C3: complement block expansion -/

/-- C3 (counterexample): for the rule `allow foo ~{bar baz}:file read;`
with types `{foo, bar, baz, qux}` and no attributes, the complemented
target block does NOT expand to `{qux}`, and the expansion is NOT the
single ground rule `allow foo qux:file read;`: the universe minus
`{bar, baz}` also contains the source `foo`. -/
theorem complement_block_counterexample :
    expandBlock complementTables "~{bar baz}" BlockRole.type none ≠
      Except.ok ["qux"] ∧
    expandRule complementTables "allow foo ~{bar baz}:file read;" ≠
      Except.ok [("allow foo qux:file", "allow foo qux:file read;")] := by
  exact ⟨by decide, by decide⟩

/-- C3 (amended): the complemented target block expands to the universe
for the role minus the listed atoms, i.e. to `{foo, qux}`, and the
expansion produces exactly the two ground rules
`allow foo foo:file read;` and `allow foo qux:file read;`. -/
theorem complement_block_amended :
    expandBlock complementTables "~{bar baz}" BlockRole.type none =
      Except.ok ["foo", "qux"] ∧
    expandRule complementTables "allow foo ~{bar baz}:file read;" =
      Except.ok [("allow foo foo:file", "allow foo foo:file read;"),
                 ("allow foo qux:file", "allow foo qux:file read;")] := by
  exact ⟨by decide, by decide⟩

/-! ## C2: multiple rules on one line -/

/-- C2 (counterexample): for the source line
`allow d t:file read; allow d t:file write;` at `a.te:5`, `get_mapping`
does not process the two rules individually: the whole line is joined
into one 10-block pseudo-rule whose expansion raises `ValueError`, so
`Mapping.lines` has no key `a.te:5` at all and `Mapping.rules` has no key
`allow d t:file` — contradicting the claim that both rule strings appear
there. -/
theorem multi_rule_line_counterexample :
    (getMapping mapTables multiRulePolicy).lines.lookup "a.te:5" = none ∧
    (getMapping mapTables multiRulePolicy).rules.lookup "allow d t:file" = none := by
  exact ⟨by decide, by decide⟩

/-- C2 (amended): `Mapping.lines` maps a `file:line` key to the single
most recently recorded original rule string (dict assignment, not list
append), and a physical line containing multiple `;`-separated rules is
treated as one malformed rule and recorded nowhere; a line holding one
rule is recorded as that single string. -/
theorem multi_rule_line_amended :
    ((getMapping mapTables multiRulePolicy).lines = [] ∧
     (getMapping mapTables multiRulePolicy).rules = []) ∧
    (getMapping mapTables
        ["#line 1 \"a.te\"", "", "", "", "", "allow d t:file read;"]).lines =
      [("a.te:5", "allow d t:file read;")] ∧
    (∀ m k v, (dictInsert m k v).lookup k = some v) := by
  exact ⟨⟨by decide, by decide⟩, by decide, dictInsert_lookup⟩

/-! ## C10: `AVRule.__hash__` arity -/

/-- C10: for every `AVRule` successfully constructed from five valid
blocks, `hash()` raises `TypeError` because `AVRule.__hash__` is declared
with a second required parameter, while its equality comparison and its
string representation (a well-formed `;`-terminated rule) work normally;
`TERule` and `MappedRule` hash without error. -/
theorem avrule_hash_raises_type_error :
    (∀ blocks r, AVRule.fromBlocks blocks = Except.ok r →
      r.pyHash = PyCall.typeError ∧ r.pyEq r = true ∧ endsSemi r.pyRepr = true) ∧
    (∀ t : TERule, t.pyHash = PyCall.ok t.pyRepr) ∧
    (∀ m : MappedRule, m.pyHash = PyCall.ok m.pyRepr) := by
  refine ⟨fun blocks r _ => ⟨rfl, ?_, ?_⟩, fun t => rfl, fun m => rfl⟩
  · simp [AVRule.pyEq]
  · simp only [AVRule.pyRepr]
    by_cases h : 1 < r.permset.length
    · rw [if_pos h, endsSemi_append _ " \x7d;" (by decide)]
      decide
    · rw [if_neg h, endsSemi_append _ ";" (by decide)]
      decide

/-- C10 (witness): the `AVRule` built from the docstring's example blocks
hashes to `TypeError`; a `TERule` from five blocks hashes fine. -/
theorem avrule_hash_raises_type_error_witness :
    exampleAVRule.pyHash = PyCall.typeError ∧
    (⟨"type_transition", "s", "t", "c", "d", none⟩ : TERule).pyHash =
      PyCall.ok (⟨"type_transition", "s", "t", "c", "d", none⟩ : TERule).pyRepr := by
  exact ⟨(avrule_hash_raises_type_error.1
      ["allow", "initrc_t", "exec_t", "file", "{ getattr read execute }"]
      exampleAVRule (by decide)).1,
    avrule_hash_raises_type_error.2.1 _⟩

/-! ## C8: `M4Macro.expand` arity handling -/

/-- C8 (counterexample): a catalogued macro of arity 0 does not return
`nil` on an arity mismatch, nor the dump form on a `nil` argument list —
it ignores the supplied arguments entirely and returns the expansion of
the bare name. -/
theorem m4_expand_arity_zero_counterexample :
    zeroArityDefn.expand (some ["x"]) = some "the body" ∧
    zeroArityDefn.expand (some ["x"]) ≠ none ∧
    zeroArityDefn.expand none ≠ some zeroArityDefn.dumpBody := by
  exact ⟨by decide, by decide, by decide⟩

/-- C8 (amended): for every catalogued macro of positive arity,
`expand(nil)` returns the dump form, a call with the wrong number of
arguments is a recoverable error returning `nil`, and a call with the
right arity returns the substituted body (by calling m4 for a dynamic
macro, by substituting into the placeholder template for a static one);
a macro of arity 0 never consults its arguments: every call returns the
expansion of the bare macro name. -/
theorem m4_expand_arity_behavior (m : M4Defn) (as : List String) :
    (0 < m.args.length → m.expand none = some m.dumpBody) ∧
    (0 < m.args.length → as.length ≠ m.args.length → m.expand (some as) = none) ∧
    (0 < m.args.length → as.length = m.args.length → m.expansionStatic = false →
      m.expand (some as) =
        m.expander (m.name ++ "(" ++ ", ".intercalate as ++ ")")) ∧
    (0 < m.args.length → as.length = m.args.length → m.expansionStatic = true →
      m.expand (some as) =
        match m.expander (m.name ++ "(" ++
            ", ".intercalate (placeholderList m.args.length) ++ ")") with
        | none => none
        | some tpl => some (substArgs tpl as)) ∧
    (m.args.length = 0 →
      m.expand (some as) = m.expander m.name ∧ m.expand none = m.expander m.name) := by
  have hsplit : ∀ (args : Option (List String)), m.args.length ≠ 0 →
      m.expand args =
        match args with
        | none => some m.dumpBody
        | some as =>
          if as.length ≠ m.args.length then none
          else if !m.expansionStatic then
            m.expander (m.name ++ "(" ++ ", ".intercalate as ++ ")")
          else
            match m.expander (m.name ++ "(" ++
                ", ".intercalate (placeholderList m.args.length) ++ ")") with
            | none => none
            | some tpl => some (substArgs tpl as) := by
    intro args hne
    simp [M4Defn.expand, hne]
  refine ⟨fun h => ?_, fun h hne => ?_, fun h heq hdyn => ?_, fun h heq hsta => ?_,
    fun h0 => ⟨?_, ?_⟩⟩
  · rw [hsplit none (Nat.pos_iff_ne_zero.mp h)]
  · rw [hsplit (some as) (Nat.pos_iff_ne_zero.mp h)]
    simp [hne]
  · rw [hsplit (some as) (Nat.pos_iff_ne_zero.mp h)]
    simp [heq, hdyn]
  · rw [hsplit (some as) (Nat.pos_iff_ne_zero.mp h)]
    simp [heq, hsta]
  · simp [M4Defn.expand, h0]
  · simp [M4Defn.expand, h0]

/-- C8 (witness): the amended behaviour at a concrete arity-1 macro:
an empty argument list returns `nil`, the `nil` argument returns the dump
form. -/
theorem m4_expand_arity_behavior_witness :
    oneArityDefn.expand (some []) = none ∧
    oneArityDefn.expand none = some oneArityDefn.dumpBody := by
  exact ⟨(m4_expand_arity_behavior oneArityDefn []).2.1 (by decide) (by decide),
    (m4_expand_arity_behavior oneArityDefn []).1 (by decide)⟩

/-! ## C4: `self` target expansion -/

/-- C4: for every AV source rule whose expanded target options include
`self`, every ground rule emitted by `__expand_avrule` has its object
equal to its subject. -/
theorem self_target_grounds (tbl : PolicyTables) (b0 b1 b2 b3 b4 : String)
    (objects : List String) (grounds : List AVGround)
    (hobj : expandBlock tbl b2 BlockRole.type none = Except.ok objects)
    (hself : "self" ∈ objects)
    (hexp : expandAVGrounds tbl [b0, b1, b2, b3, b4] = Except.ok grounds) :
    ∀ g ∈ grounds, g.obj = g.sub := by
  intro g hg
  obtain ⟨subjects, hsub, hexp⟩ :=
    exceptBind_ok (x := expandBlock tbl b1 BlockRole.type none) hexp
  obtain ⟨objects', hobj', hexp⟩ :=
    exceptBind_ok (x := expandBlock tbl b2 BlockRole.type none) hexp
  rw [hobj] at hobj'
  obtain rfl : objects = objects' := by
    exact (Except.ok.injEq _ _).mp hobj'
  obtain ⟨classes, hcls, hexp⟩ :=
    exceptBind_ok (x := expandBlock tbl b3 BlockRole.cls none) hexp
  rw [if_pos hself] at hexp
  obtain ⟨lss, hmm, hexp⟩ := exceptBind_ok hexp
  have hgr : grounds = lss.flatten := by
    simpa [pure, Except.pure] using hexp.symm
  subst hgr
  rcases List.mem_flatten.mp hg with ⟨ls, hls, hgls⟩
  rcases mapMExcept_ok_mem _ classes lss hmm ls hls with ⟨cls, _, hf⟩
  obtain ⟨perms, hp, hf⟩ :=
    exceptBind_ok (x := expandBlock tbl b4 BlockRole.perms (some cls)) hf
  obtain ⟨permstr, hps, hf⟩ := exceptBind_ok (x := permString perms) hf
  have hls' : ls = selfClassGrounds b0 subjects cls permstr := by
    simpa [pure, Except.pure] using hf.symm
  subst hls'
  exact selfClassGrounds_obj_eq_sub b0 subjects cls permstr g hgls

/-! ## C5 and C9: sync-line tracking and multi-line rules -/

/-- The body of the `get_mapping` loop never changes the current file or
the current line counter. -/
theorem mapBody_preserves (tbl : PolicyTables) (st : MapState) (line : String) :
    (mapBody tbl st line).currentLine = st.currentLine ∧
    (mapBody tbl st line).currentFile = st.currentFile := by
  simp only [mapBody]
  repeat' split
  all_goals simp

/-- C5: `get_mapping` tracks origin through m4 sync lines: a
`#line 1 "path"` marker sets the current file and resets the counter to 1
without recording anything (sync lines are not counted), any line that is
not a sync line (its predecessor not being one either) bumps the counter
by one and keeps the file, and consequently the `policy.conf` made of the
marker for `a.te`, two blank lines and `allow d t:file read;` records the
rule under the key `a.te:3`. -/
theorem sync_line_tracking :
    (∀ (tbl : PolicyTables) (st : MapState) (line : String), st.prevSync = false →
      pyStarts line "#line 1 \"" = true →
      mapStep tbl st line =
        { st with currentFile := syncFilePath line, currentLine := 1,
                  prevSync := true }) ∧
    (∀ (tbl : PolicyTables) (st : MapState) (line : String), st.prevSync = false →
      pyStarts line "#line 1 \"" = false → pyStarts line "#line " = false →
      (mapStep tbl st line).currentLine = st.currentLine + 1 ∧
      (mapStep tbl st line).currentFile = st.currentFile) ∧
    (getMapping mapTables syncPolicy).lines = [("a.te:3", "allow d t:file read;")] := by
  refine ⟨fun tbl st line h1 h2 => ?_, fun tbl st line h1 h2 h3 => ?_, by decide⟩
  · simp [mapStep, h1, h2]
  · simp only [mapStep, h1, h2, h3, Bool.not_false, if_true, Bool.false_eq_true,
      if_false]
    exact ⟨(mapBody_preserves tbl _ line).1, (mapBody_preserves tbl _ line).2⟩

/-- C5 (witness): the sync-tracking behaviour at concrete inputs: the
marker `#line 1 "a.te"` switches the state to `("a.te", 1)`, and a
regular line after it bumps the counter to 2. -/
theorem sync_line_tracking_witness :
    mapStep mapTables initialMapState "#line 1 \"a.te\"" =
      { initialMapState with currentFile := "a.te", currentLine := 1,
                             prevSync := true } ∧
    (mapStep mapTables
      { initialMapState with currentFile := "a.te", currentLine := 1 }
      "somethingelse").currentLine = 2 := by
  exact ⟨(sync_line_tracking.1 mapTables initialMapState _ rfl (by decide)).trans
      (by decide),
    (sync_line_tracking.2.1 mapTables _ _ rfl (by decide) (by decide)).1⟩

/-- C9: a supported rule whose text spans several physical lines is
recorded — both as the key into `Mapping.lines` and as the fileline of
every `MappedRule` — under the file:line of the physical line containing
the terminating `;` (the line counter at completion time), not the line
where the rule started: the completing step uses the just-incremented
counter for the key, whatever earlier lines sit in the group. -/
theorem multiline_rule_last_line (tbl : PolicyTables) (st : MapState) (line : String)
    (rules : List (String × String))
    (h1 : st.prevSync = false)
    (h2 : pyStarts line "#line 1 \"" = false)
    (h3 : pyStarts line "#line " = false)
    (h4 : (pyStrip line = "" || pyStarts (pyStrip line) "#") = false)
    (h5 : st.group.isEmpty = false)
    (h6 : endsSemi (commentStripped (pyStrip line)) = true)
    (h7 : expandRule tbl (normSpaces (st.group ++ [commentStripped (pyStrip line)])) =
      Except.ok rules) :
    (mapStep tbl st line).lines =
      dictInsert st.lines (st.currentFile ++ ":" ++ toString (st.currentLine + 1))
        (normSpaces (st.group ++ [commentStripped (pyStrip line)])) ∧
    (mapStep tbl st line).rules =
      rules.foldl (fun m kv => appendRuleEntry m kv.1
        ⟨kv.2, st.currentFile ++ ":" ++ toString (st.currentLine + 1)⟩) st.rules ∧
    (mapStep tbl st line).group = [] := by
  simp only [mapStep, h1, Bool.not_false, if_true]
  simp only [h2, h3, Bool.false_eq_true, if_false]
  simp only [mapBody, commentStripped] at h6 h7 ⊢
  simp only [h4, Bool.false_eq_true, if_false, h5, Bool.false_and, h6, Bool.not_true,
    h7]
  exact ⟨trivial, trivial, trivial⟩

/-- C9 (witness): the rule `allow d t:file read;` written across lines 1
and 2 of `a.te` is recorded under `a.te:2`, not `a.te:1`. -/
theorem multiline_rule_last_line_witness :
    (mapStep mapTables twoLineMidState "t:file read;").lines =
      [("a.te:2", "allow d t:file read;")] ∧
    (getMapping mapTables twoLinePolicy).lines =
      [("a.te:2", "allow d t:file read;")] ∧
    (getMapping mapTables twoLinePolicy).rules =
      [("allow d t:file", [⟨"allow d t:file read;", "a.te:2"⟩])] := by
  refine ⟨(multiline_rule_last_line mapTables twoLineMidState "t:file read;"
      [("allow d t:file", "allow d t:file read;")] rfl (by decide) (by decide)
      (by decide) rfl (by decide) (by decide)).1.trans (by decide),
    by decide, by decide⟩

/-! ## C1: set fitter optimality -/

/-- The first-minimum fold behind `minBy`: the result is the start or a
list element, and its key is minimal. -/
theorem foldl_min_spec {α : Type} (key : α → Nat) :
    ∀ (xs : List α) (x : α),
      ((xs.foldl (fun acc y => if key y < key acc then y else acc) x) = x ∨
        (xs.foldl (fun acc y => if key y < key acc then y else acc) x) ∈ xs) ∧
      key (xs.foldl (fun acc y => if key y < key acc then y else acc) x) ≤ key x ∧
      ∀ b ∈ xs, key (xs.foldl (fun acc y => if key y < key acc then y else acc) x) ≤ key b := by
  intro xs
  induction xs with
  | nil => exact fun x => ⟨Or.inl rfl, le_refl _, by simp⟩
  | cons y ys ih =>
    intro x
    simp only [List.foldl_cons]
    obtain ⟨hr, hkey, hall⟩ := ih (if key y < key x then y else x)
    have hx : key (if key y < key x then y else x) ≤ key x := by
      by_cases h : key y < key x
      · rw [if_pos h]; exact le_of_lt h
      · rw [if_neg h]
    have hy : key (if key y < key x then y else x) ≤ key y := by
      by_cases h : key y < key x
      · rw [if_pos h]
      · rw [if_neg h]; exact le_of_not_lt h
    refine ⟨?_, le_trans hkey hx, ?_⟩
    · rcases hr with hr | hr
      · rw [hr]
        by_cases h : key y < key x
        · rw [if_pos h] at hr ⊢
          exact Or.inr (List.mem_cons_self y ys)
        · rw [if_neg h] at hr ⊢
          exact Or.inl rfl
      · exact Or.inr (List.mem_cons_of_mem y hr)
    · intro b hb
      rcases List.mem_cons.mp hb with hb | hb
      · subst hb
        exact le_trans hkey hy
      · exact hall b hb

/-- `minBy` returns an element of the list. -/
theorem minBy_mem {α : Type} (key : α → Nat) (l : List α) (a : α)
    (h : minBy key l = some a) : a ∈ l := by
  cases l with
  | nil => exact absurd h (by simp [minBy])
  | cons x xs =>
    simp only [minBy, Option.some.injEq] at h
    rcases (foldl_min_spec key xs x).1 with hr | hr
    · rw [← h, hr]; exact List.mem_cons_self x xs
    · rw [← h]; exact List.mem_cons_of_mem x hr

/-- The key of the element `minBy` returns is minimal over the list. -/
theorem minBy_le {α : Type} (key : α → Nat) (l : List α) (a : α)
    (h : minBy key l = some a) : ∀ b ∈ l, key a ≤ key b := by
  cases l with
  | nil => exact absurd h (by simp [minBy])
  | cons x xs =>
    simp only [minBy, Option.some.injEq] at h
    obtain ⟨_, hkey, hall⟩ := foldl_min_spec key xs x
    intro b hb
    rcases List.mem_cons.mp hb with hb | hb
    · exact h ▸ hb ▸ hkey
    · exact h ▸ hall b hb

/-- Membership in the combination list of `fit`: exactly the non-empty
subsequences of the full-score candidates. -/
theorem mem_nonemptyCombos (ones : List RichSet) (c : List RichSet) :
    c ∈ nonemptyCombos ones ↔ (c.Sublist ones ∧ c ≠ []) := by
  simp [nonemptyCombos, List.mem_filter, List.mem_sublists]

/-- C1: whenever at least one candidate has coverage score 1, the winner
returned by `SetFitter.fit` is a non-empty subsequence of the full-score
candidates that minimizes `|extra|` over all non-empty subsequences and,
among those minimizers, has the smallest cardinality. -/
theorem set_fitter_winner_optimal (d : List (String × List String)) (s : List String)
    (h : fullSets d s ≠ []) :
    (fit d s).1 ≠ [] ∧ (fit d s).1.Sublist (fullSets d s) ∧
    (∀ r ∈ fullSets d s, r.score = 1) ∧
    (∀ c, c.Sublist (fullSets d s) → c ≠ [] →
      extraLen s (fit d s).1 ≤ extraLen s c ∧
      (extraLen s c = extraLen s (fit d s).1 → (fit d s).1.length ≤ c.length)) := by
  have hscore1 : ∀ r ∈ fullSets d s, r.score = 1 := by
    intro r hr
    have := (List.mem_filter.mp hr).2
    exact of_decide_eq_true this
  have hfit : (fit d s).1 = selectWinner s (nonemptyCombos (fullSets d s)) := rfl
  have hex : ∃ r0 rs, fullSets d s = r0 :: rs := by
    cases hh : fullSets d s with
    | nil => exact absurd hh h
    | cons a as => exact ⟨a, as, rfl⟩
  obtain ⟨r0, rs, hhead⟩ := hex
  have hmem0 : [r0] ∈ nonemptyCombos (fullSets d s) := by
    rw [mem_nonemptyCombos, hhead]
    exact ⟨(List.nil_sublist rs).cons₂ r0, by simp⟩
  rcases hmb : minBy (extraLen s) (nonemptyCombos (fullSets d s)) with _ | c0
  · cases hcombos : nonemptyCombos (fullSets d s) with
    | nil => rw [hcombos] at hmem0; simp at hmem0
    | cons a as => rw [hcombos] at hmb; simp [minBy] at hmb
  · have hc0mem := minBy_mem _ _ _ hmb
    have hc0min := minBy_le _ _ _ hmb
    have hc0grp : c0 ∈ (nonemptyCombos (fullSets d s)).filter
        (fun c => extraLen s c == extraLen s c0) := by
      rw [List.mem_filter]
      exact ⟨hc0mem, by simp⟩
    rcases hmb2 : minBy List.length ((nonemptyCombos (fullSets d s)).filter
        (fun c => extraLen s c == extraLen s c0)) with _ | w
    · rcases hgrp : (nonemptyCombos (fullSets d s)).filter
          (fun c => extraLen s c == extraLen s c0) with _ | ⟨a, as⟩
      · rw [hgrp] at hc0grp; simp at hc0grp
      · rw [hgrp] at hmb2; simp [minBy] at hmb2
    · have hwin : (fit d s).1 = w := by
        rw [hfit]
        simp only [selectWinner, hmb, hmb2]
      have hwgrp := minBy_mem _ _ _ hmb2
      have hwlen := minBy_le _ _ _ hmb2
      obtain ⟨hwcombos, hwex⟩ := List.mem_filter.mp hwgrp
      have hwex' : extraLen s w = extraLen s c0 := eq_of_beq hwex
      obtain ⟨hwsub, hwne⟩ := (mem_nonemptyCombos _ _).mp hwcombos
      rw [hwin]
      refine ⟨hwne, hwsub, hscore1, fun c hcsub hcne => ?_⟩
      have hcmem : c ∈ nonemptyCombos (fullSets d s) :=
        (mem_nonemptyCombos _ _).mpr ⟨hcsub, hcne⟩
      constructor
      · rw [hwex']
        exact hc0min c hcmem
      · intro hceq
        have hcgrp : c ∈ (nonemptyCombos (fullSets d s)).filter
            (fun c => extraLen s c == extraLen s c0) := by
          rw [List.mem_filter]
          refine ⟨hcmem, ?_⟩
          rw [hceq, hwex']
          simp
        exact hwlen c hcgrp

/-- C1 (witness): for macros `r = {getattr open read ioctl lock}` and
`w = {open append write}` and target
`S = {open append write getattr read ioctl lock}` the winner is `{r, w}`
with empty extra, and the optimality theorem applies. -/
theorem set_fitter_winner_optimal_witness :
    (fit fitMacros fitTarget).1.map (fun r => r.name) = ["r", "w"] ∧
    extraLen fitTarget (fit fitMacros fitTarget).1 = 0 ∧
    ((fit fitMacros fitTarget).1 ≠ [] ∧
      (fit fitMacros fitTarget).1.Sublist (fullSets fitMacros fitTarget) ∧
      (∀ r ∈ fullSets fitMacros fitTarget, r.score = 1) ∧
      (∀ c, c.Sublist (fullSets fitMacros fitTarget) → c ≠ [] →
        extraLen fitTarget (fit fitMacros fitTarget).1 ≤ extraLen fitTarget c ∧
        (extraLen fitTarget c = extraLen fitTarget (fit fitMacros fitTarget).1 →
          (fit fitMacros fitTarget).1.length ≤ c.length))) := by
  exact ⟨by decide, by decide,
    set_fitter_winner_optimal fitMacros fitTarget (by decide)⟩

/-! ## C6: partial matches and the coverage score -/

/-- Looking a key up in a tally built by mapping a function over the keys. -/
theorem lookup_map_const (f : String → Nat) :
    ∀ (values : List String) (e : String),
      (values.map (fun v => (v, f v))).lookup e =
        if e ∈ values then some (f e) else none := by
  intro values e
  induction values with
  | nil => simp [List.lookup]
  | cons v vs ih =>
    simp only [List.map_cons, List.lookup]
    by_cases h : e = v
    · subst h
      simp
    · have hb : (e == v) = false := by simp [h]
      simp [hb, ih, h]

/-- A pair-map over keys avoiding `e` is unchanged by the bump at `e`. -/
theorem map_pair_congr_of_not_mem (f : String → Nat) (e : String) :
    ∀ (vs : List String), e ∉ vs →
      vs.map (fun v => (v, if v = e then f v + 1 else f v)) =
        vs.map (fun v => (v, f v)) := by
  intro vs
  induction vs with
  | nil => intro _; rfl
  | cons w ws ih =>
    intro he
    have hw : w ≠ e := fun h => he (h ▸ List.mem_cons_self w ws)
    have hws : e ∉ ws := fun h => he (List.mem_cons_of_mem w h)
    simp only [List.map_cons, List.cons.injEq]
    exact ⟨by simp [hw], ih hws⟩

/-- Bumping a tally built over distinct keys increments exactly the entry
of the bumped key. -/
theorem bumpTally_map (f : String → Nat) :
    ∀ (values : List String) (e : String), values.Nodup → e ∈ values →
      bumpTally (values.map (fun v => (v, f v))) e =
        values.map (fun v => (v, if v = e then f v + 1 else f v)) := by
  intro values
  induction values with
  | nil => intro e _ he; simp at he
  | cons v vs ih =>
    intro e hnd he
    obtain ⟨hv, hvs⟩ := List.nodup_cons.mp hnd
    simp only [List.map_cons, bumpTally]
    by_cases h : v = e
    · rw [if_pos h]
      have hev : e ∉ vs := h ▸ hv
      rw [if_pos h, map_pair_congr_of_not_mem f e vs hev]
    · rw [if_neg h]
      have hevs : e ∈ vs := by
        rcases List.mem_cons.mp he with h' | h'
        · exact absurd h'.symm h
        · exact h'
      rw [if_neg h, ih e hvs hevs]

/-- Appending one element to the processed prefix changes each count by at
most the one at that element. -/
theorem count_append_one (p : List String) (v e : String) :
    (p ++ [e]).count v = p.count v + (if v = e then 1 else 0) := by
  rw [List.count_append]
  congr 1
  by_cases h : v = e
  · simp [h, List.count_singleton]
  · have : v ∉ [e] := by simp [h]
    simp [List.count_eq_zero.mpr this, h]

/-- Appending one element to the processed prefix grows the matched-value
count by one exactly when the element is a fresh member of the candidate
set. -/
theorem filter_mem_append_one (p : List String) (e : String) :
    ∀ (values : List String), values.Nodup →
      (values.filter (fun v => decide (v ∈ p ++ [e]))).length =
        (values.filter (fun v => decide (v ∈ p))).length +
          (if e ∈ values ∧ e ∉ p then 1 else 0) := by
  intro values
  induction values with
  | nil => simp
  | cons v vs ih =>
    intro hnd
    obtain ⟨hv, hvs⟩ := List.nodup_cons.mp hnd
    have ih' := ih hvs
    by_cases hve : v = e
    · subst hve
      have h2 : vs.filter (fun w => decide (w ∈ p ++ [v])) =
          vs.filter (fun w => decide (w ∈ p)) := by
        apply List.filter_congr
        intro w hw
        have hwv : w ≠ v := fun h => hv (h ▸ hw)
        simp [List.mem_append, hwv]
      rw [List.filter_cons_of_pos (by simp), h2]
      by_cases hvp : v ∈ p
      · rw [List.filter_cons_of_pos (by simpa using hvp),
          if_neg (fun h => h.2 hvp)]
        simp
      · rw [List.filter_cons_of_neg (by simpa using hvp),
          if_pos ⟨List.mem_cons_self v vs, hvp⟩]
        simp
    · have h4 : decide (v ∈ p ++ [e]) = decide (v ∈ p) := by
        simp [List.mem_append, hve]
      have h5 : (e ∈ v :: vs ∧ e ∉ p) = (e ∈ vs ∧ e ∉ p) := by
        apply propext
        constructor
        · rintro ⟨h6, h7⟩
          rcases List.mem_cons.mp h6 with h8 | h8
          · exact absurd h8.symm hve
          · exact ⟨h8, h7⟩
        · rintro ⟨h6, h7⟩
          exact ⟨List.mem_cons_of_mem v h6, h7⟩
      simp only [h5]
      cases hdp : decide (v ∈ p)
      · rw [List.filter_cons_of_neg (by rw [h4, hdp]; simp),
          List.filter_cons_of_neg (by rw [hdp]; simp)]
        exact ih'
      · rw [List.filter_cons_of_pos (by rw [h4, hdp]),
          List.filter_cons_of_pos (by rw [hdp])]
        simp only [List.length_cons]
        omega

/-- A value never seen leaves every tally count unchanged. -/
theorem map_count_untouched (p : List String) (e : String) :
    ∀ (values : List String), e ∉ values →
      values.map (fun v => (v, p.count v)) =
        values.map (fun v => (v, (p ++ [e]).count v)) := by
  intro values
  induction values with
  | nil => intro _; rfl
  | cons v vs ih =>
    intro he
    have hv : v ≠ e := fun h => he (h ▸ List.mem_cons_self v vs)
    have hvs : e ∉ vs := fun h => he (List.mem_cons_of_mem v h)
    simp only [List.map_cons, List.cons.injEq]
    exact ⟨by simp [count_append_one, hv], ih hvs⟩

/-- A value never seen leaves the matched-value filter unchanged. -/
theorem filter_mem_untouched (p : List String) (e : String)
    (values : List String) (he : e ∉ values) :
    values.filter (fun v => decide (v ∈ p ++ [e])) =
      values.filter (fun v => decide (v ∈ p)) := by
  apply List.filter_congr
  intro w hw
  have : w ≠ e := fun h => he (h ▸ hw)
  simp [List.mem_append, this]

/-- One `incr` step preserves the fitting-loop invariant. -/
theorem incr_inv (name : String) (values : List String) (hnd : values.Nodup)
    (p : List String) (r : RichSet) (e : String)
    (hinv : RichInv name values p r) : RichInv name values (p ++ [e]) (r.incr e) := by
  obtain ⟨hname, hvals, htally, hnz, hscore⟩ := hinv
  have hfun : (fun v => ((v : String), if v = e then p.count v + 1 else p.count v)) =
      (fun v => (v, (p ++ [e]).count v)) := by
    funext v
    by_cases hv : v = e <;> simp [count_append_one, hv]
  unfold RichSet.incr
  rw [htally, lookup_map_const]
  by_cases he : e ∈ values
  · rw [if_pos he]
    dsimp only
    by_cases hz : p.count e = 0
    · rw [if_pos hz]
      have hep : e ∉ p := List.count_eq_zero.mp hz
      refine ⟨hname, hvals, ?_, ?_, ?_⟩
      · dsimp only
        rw [bumpTally_map _ values e hnd he, hfun]
      · dsimp only
        rw [filter_mem_append_one p e values hnd, if_pos ⟨he, hep⟩, hnz]
      · dsimp only
        rw [List.length_map]
    · rw [if_neg hz]
      have hep : e ∈ p := by
        by_contra hcon
        exact hz (List.count_eq_zero.mpr hcon)
      refine ⟨hname, hvals, ?_, ?_, ?_⟩
      · dsimp only
        rw [bumpTally_map _ values e hnd he, hfun]
      · dsimp only
        rw [filter_mem_append_one p e values hnd, if_neg (fun h => h.2 hep), hnz]
        simp
      · dsimp only
        exact hscore
  · rw [if_neg he]
    refine ⟨hname, hvals, ?_, ?_, hscore⟩
    · rw [htally]
      exact map_count_untouched p e values he
    · rw [filter_mem_untouched p e values he, hnz]

/-- The fitting loop over the whole target set preserves the invariant. -/
theorem processRich_inv (name : String) (values : List String) (hnd : values.Nodup) :
    ∀ (rest p : List String) (r : RichSet),
      RichInv name values p r →
        RichInv name values (p ++ rest) (rest.foldl RichSet.incr r) := by
  intro rest
  induction rest with
  | nil => intro p r h; simpa using h
  | cons e es ih =>
    intro p r h
    have h2 := ih (p ++ [e]) (r.incr e) (incr_inv name values hnd p r e h)
    simp only [List.foldl_cons]
    have : p ++ e :: es = (p ++ [e]) ++ es := by simp
    rw [this]
    exact h2

/-- The invariant at the start of the loop. -/
theorem init_inv (name : String) (values : List String) :
    RichInv name values [] (RichSet.init name values) := by
  refine ⟨rfl, rfl, ?_, ?_, ?_⟩
  · simp [RichSet.init]
  · simp [RichSet.init]
  · simp [RichSet.init]

/-- The fitting loop of `fit` processes each candidate independently. -/
theorem richAfter_eq_map (d : List (String × List String)) (s : List String) :
    richAfter d s = d.map (fun kv => processRich s (RichSet.init kv.1 kv.2)) := by
  have h : ∀ (l : List RichSet) (s : List String),
      s.foldl (fun rs elem => rs.map (fun each => each.incr elem)) l =
        l.map (fun r => processRich s r) := by
    intro l s
    induction s generalizing l with
    | nil => simp [processRich]
    | cons e es ih =>
      simp only [List.foldl_cons, ih, List.map_map]
      rfl
  rw [richAfter, h, List.map_map]
  rfl

/-- Score characterization: after the fitting loop each candidate's score
is the matched count over the candidate size, as a rational. -/
theorem richAfter_score (d : List (String × List String)) (s : List String)
    (hd : ∀ kv ∈ d, (kv.2 : List String).Nodup) :
    ∀ r ∈ richAfter d s,
      r.score = mkRat ((r.values.filter (fun v => decide (v ∈ s))).length)
        r.values.length ∧
      r.values.Nodup := by
  rw [richAfter_eq_map]
  intro r hr
  rcases List.mem_map.mp hr with ⟨kv, hkv, rfl⟩
  have hnd := hd kv hkv
  have hinv := processRich_inv kv.1 kv.2 hnd s [] _ (init_inv kv.1 kv.2)
  rw [List.nil_append] at hinv
  simp only [processRich]
  obtain ⟨_, hvals, _, hnz, hscore⟩ := hinv
  constructor
  · rw [hscore, hnz, hvals]
  · rw [hvals]
    exact hnd

/-- C6 (counterexample): fitting the target `{y}` against the single
candidate `m = {x}` — which shares no element with the target, so its
coverage score is 0, not in `(0, 1)` — still returns `m` as a partial
match: `fit` partitions into score-1 candidates and all the rest. -/
theorem part_list_score_zero_counterexample :
    (fit [("m", ["x"])] ["y"]).2.map (fun r => (r.name, r.score)) = [("m", 0)] ∧
    (fit [("m", ["x"])] ["y"]).2 ≠ [] := by
  exact ⟨by decide, by decide⟩

/-- C6 (amended): the second component of `SetFitter.fit` contains exactly
the candidates whose coverage score `|S ∩ set| / |set|` is less than 1 —
the interval `[0, 1)`, including score 0 for candidates sharing no element
with `S`. -/
theorem part_list_characterization (d : List (String × List String)) (s : List String)
    (hd : ∀ kv ∈ d, (kv.2 : List String).Nodup) :
    (fit d s).2 = (richAfter d s).filter (fun x => decide (¬ x.score = 1)) ∧
    ∀ r ∈ richAfter d s,
      r.score = ((r.values.filter (fun v => decide (v ∈ s))).length : ℚ) /
        (r.values.length : ℚ) ∧
      (0 : ℚ) ≤ r.score ∧ r.score ≤ 1 ∧
      (r ∈ (fit d s).2 ↔ r.score < 1) := by
  refine ⟨rfl, fun r hr => ?_⟩
  obtain ⟨hscore, _⟩ := richAfter_score d s hd r hr
  have hle : ((r.values.filter (fun v => decide (v ∈ s))).length : ℚ) ≤
      (r.values.length : ℚ) := by
    exact_mod_cast List.length_filter_le _ _
  have hnn : (0 : ℚ) ≤ r.score := by
    rw [hscore, Rat.mkRat_eq_div]
    positivity
  have hub : r.score ≤ 1 := by
    rw [hscore, Rat.mkRat_eq_div]
    rcases Nat.eq_zero_or_pos r.values.length with hz | hpos
    · simp [hz]
    · rw [div_le_one (by exact_mod_cast hpos)]
      push_cast
      exact hle
  refine ⟨by rw [hscore, Rat.mkRat_eq_div]; push_cast; rfl, hnn, hub, ?_⟩
  constructor
  · intro hpart
    have := (List.mem_filter.mp hpart).2
    have hne : ¬ r.score = 1 := of_decide_eq_true this
    exact lt_of_le_of_ne hub hne
  · intro hlt
    rw [show (fit d s).2 = partSets d s from rfl, partSets, List.mem_filter]
    exact ⟨hr, decide_eq_true (ne_of_lt hlt)⟩

/-- C6 (witness): the characterization applied to the counterexample
input: the lone candidate has score 0 and lies in the partial list. -/
theorem part_list_characterization_witness :
    (RichSet.init "m" ["x"]).score =
      (((["x"].filter (fun v => decide (v ∈ (["y"] : List String)))).length : ℚ) /
        ((["x"] : List String).length : ℚ)) ∧
    (0 : ℚ) ≤ (RichSet.init "m" ["x"]).score ∧
    (RichSet.init "m" ["x"]).score ≤ 1 ∧
    ((RichSet.init "m" ["x"]) ∈ (fit [("m", ["x"])] ["y"]).2 ↔
      (RichSet.init "m" ["x"]).score < 1) := by
  have h := (part_list_characterization [("m", ["x"])] ["y"]
    (by intro kv hkv; simp only [List.mem_singleton] at hkv; subst hkv; decide)).2
    (RichSet.init "m" ["x"]) (by decide)
  exact h

/-! ## C7: malformed rules and `ValueError` -/

/-- A successful step on `~` always sets the pending-complement flag. -/
theorem blocksStep_tilde (rule : String) (st st' : ScanState)
    (h : blocksStep rule st '~' = Except.ok st') : st'.compNext = true := by
  have hc : isComplementable '~' = false := by decide
  simp only [blocksStep, hc, Bool.not_false, Bool.and_true] at h
  cases hcn : st.compNext <;> rw [hcn] at h
  · simp only [Bool.false_eq_true, if_false, if_pos rfl] at h
    by_cases hn : st.nestLvl ≠ 0
    · rw [if_pos hn] at h
      exact absurd h (by simp)
    · rw [if_neg hn] at h
      have := (Except.ok.injEq _ _).mp h
      rw [← this]
  · exact absurd h (by simp)

/-- With the pending-complement flag set, a step on a character that may
not follow `~` raises `ValueError`. -/
theorem blocksStep_badChar (rule : String) (st : ScanState) (c : Char)
    (hcn : st.compNext = true) (hc : isComplementable c = false) :
    ∃ e, blocksStep rule st c = Except.error e := by
  refine ⟨"Bad complement sign in \"" ++ rule ++ "\"", ?_⟩
  simp [blocksStep, hcn, hc]

/-- Whenever the scanned character stream contains a `~` immediately
followed by a non-complementable character, the scan raises. -/
theorem scanRule_tilde_err (rule : String) (c : Char) (hc : isComplementable c = false) :
    ∀ (l1 : List Char) (st : ScanState) (l2 : List Char),
      ∃ e, scanRule rule st (l1 ++ '~' :: c :: l2) = Except.error e := by
  intro l1
  induction l1 with
  | nil =>
    intro st l2
    rcases h : blocksStep rule st '~' with e | st'
    · exact ⟨e, by simp [scanRule, h]⟩
    · obtain ⟨e, he⟩ := blocksStep_badChar rule st' c (blocksStep_tilde rule st st' h) hc
      exact ⟨e, by simp [scanRule, h, he]⟩
  | cons a l1 ih =>
    intro st l2
    rcases h : blocksStep rule st a with e | st'
    · exact ⟨e, by simp [scanRule, h]⟩
    · obtain ⟨e, he⟩ := ih st' l2
      exact ⟨e, by simp [scanRule, h, he]⟩

/-- C7 (amended): `get_rule_blocks` raises `ValueError` whenever the
counts of `{` and `}` differ, and whenever — in the scanned text, i.e.
the portion after the first space with trailing semicolons stripped and
`:` replaced by a space — a `~` is followed by a character that is not a
letter or `{`. (A `~` whose following characters were all stripped as
trailing semicolons escapes the check; see the counterexample.) -/
theorem malformed_rule_value_error (rule : String) :
    (rule.data.count '{' ≠ rule.data.count '}' →
      exceptIsErr (getRuleBlocks rule) = true) ∧
    (∀ rt rest l1 c l2, splitFirstSpace rule = some (rt, rest) →
      colonToSpace (rstripSemis rest).data = l1 ++ '~' :: c :: l2 →
      isComplementable c = false →
      exceptIsErr (getRuleBlocks rule) = true) := by
  constructor
  · intro h
    simp [getRuleBlocks, h, exceptIsErr]
  · intro rt rest l1 c l2 hsplit hchars hc
    by_cases hcount : rule.data.count '{' ≠ rule.data.count '}'
    · simp [getRuleBlocks, hcount, exceptIsErr]
    · obtain ⟨e, he⟩ := scanRule_tilde_err rule c hc l1
        { nestLvl := 0, block := "", blocks := [rt], compNext := false } l2
      rw [← hchars] at he
      simp [getRuleBlocks, hcount, hsplit, he, exceptIsErr]

/-- C7 (counterexample): in the rule `allow a ~;` the character `~` is
followed by `;`, which is not a letter or `{`, yet `get_rule_blocks`
raises no `ValueError`: the trailing semicolon is stripped before the
scan and the call returns the blocks `["allow", "a"]`. -/
theorem malformed_rule_counterexample :
    getRuleBlocks "allow a ~;" = Except.ok ["allow", "a"] ∧
    "allow a ~;".data[8]? = some '~' ∧
    "allow a ~;".data[9]? = some ';' ∧
    isComplementable ';' = false := by
  exact ⟨by decide, by decide, by decide, by decide⟩

/-- C7 (witness): a rule where `~` is followed by a digit inside the
scanned text does raise, as does one with mismatched braces. -/
theorem malformed_rule_value_error_witness :
    exceptIsErr (getRuleBlocks "allow a ~1 b:c d;") = true ∧
    exceptIsErr (getRuleBlocks "allow \x7b a b:c d;") = true := by
  refine ⟨(malformed_rule_value_error "allow a ~1 b:c d;").2
      "allow" "a ~1 b:c d;" ['a', ' '] '1' [' ', 'b', ' ', 'c', ' ', 'd']
      (by decide) (by decide) (by decide),
    (malformed_rule_value_error "allow \x7b a b:c d;").1 (by decide)⟩

/-- C4 (witness): `allow {a b} self:process signal;` with types `{a, b}`
expands to exactly `allow a a:process signal;` and
`allow b b:process signal;`, and the first emitted ground rule has its
object equal to its subject by the theorem. -/
theorem self_target_grounds_witness :
    (⟨"allow", "a", "a", "process", "signal"⟩ : AVGround).obj =
      (⟨"allow", "a", "a", "process", "signal"⟩ : AVGround).sub ∧
    expandRule selfTables "allow {a b} self:process signal;" =
      Except.ok [("allow a a:process", "allow a a:process signal;"),
                 ("allow b b:process", "allow b b:process signal;")] := by
  refine ⟨self_target_grounds selfTables "allow" "{a b}" "self" "process" "signal"
    ["self"] selfGrounds2 (by decide) (by decide) (by decide)
    ⟨"allow", "a", "a", "process", "signal"⟩ (by decide), by decide⟩

end Selint
